import Mathlib

/-
Verification of the dependency-visualizer core (src/dependency_visualizer.py):
a shallow embedding of the version normalizer, the registry fetch boundary,
the depth-bounded graph builder and the load-order computation, together with
theorems settling the behavioural claims about them.
-/

namespace DepViz

/-- A parsed dependency record, as produced by `fetch_dependencies`:
`{'name': ..., 'version': ..., 'kind': ...}`. -/
structure Dep where
  name : String
  version : String
  kind : String
deriving DecidableEq

/-- The registry abstracted as a pure function from (package, version) to the
dependency list that `fetch_dependencies` would return for it. -/
abbrev Fetcher := String → String → List Dep

/-- Node-key serialization `f"{package}@{version}"`. -/
def nodeKey (p v : String) : String := p ++ "@" ++ v

/-- Characters removed by `_extract_version`: the source does
`replace('^','').replace('~','').replace('=','')`. -/
def keepChar (c : Char) : Bool := !(c == '^' || c == '~' || c == '=')

/-- `_extract_version`: strip every `^`, `~`, `=`, then take the part before
the first comma when a comma is present
(`clean_version.split(',')[0] if ',' in clean_version else clean_version`). -/
def extract_version (req : String) : String :=
  let clean := req.toList.filter keepChar
  if ',' ∈ clean then String.mk (clean.takeWhile fun c => c != ',') else String.mk clean

/-- Membership test on a list by decidable equality (models Python `in` on a
set or list of hashable values). -/
def memB {α : Type} [DecidableEq α] (x : α) : List α → Bool
  | [] => false
  | y :: ys => x = y || memB x ys

theorem memB_iff {α : Type} [DecidableEq α] (x : α) (l : List α) :
    memB x l = true ↔ x ∈ l := by
  induction l with
  | nil => simp [memB]
  | cons y ys ih => simp [memB, ih, List.mem_cons]

/-- Does `needle` occur as a leading run of `hay`? (helper for the Python
substring test `sub in s`). -/
def isSubAt : List Char → List Char → Bool
  | [], _ => true
  | _ :: _, [] => false
  | c :: cs, h :: hs => c == h && isSubAt cs hs

/-- Python substring containment `needle in hay` on character lists. -/
def subOf (needle : List Char) : List Char → Bool
  | [] => isSubAt needle []
  | h :: hs => isSubAt needle (h :: hs) || subOf needle hs

/-- Python `str.lower()`. -/
def lowerStr (s : String) : String := String.mk (s.toList.map Char.toLower)

/-- The builder's filter test: `filter_sub = filter_substring.lower()` followed
by `if filter_sub and filter_sub in package.lower()`. -/
def filterMatches (filt pkg : String) : Bool :=
  let fsub := lowerStr filt
  fsub != "" && subOf fsub.toList (lowerStr pkg).toList

/- ### The registry fetch boundary (`fetch_dependencies`) -/

/-- One element of the JSON `dependencies` array; fields are optional because
the response schema is not validated (`dep['crate_id']`, `dep['req']`,
`dep.get('kind', 'normal')`). -/
structure RawDep where
  crate_id : Option String
  req : Option String
  kind : Option String
deriving DecidableEq

/-- The decoded JSON body: `data.get('dependencies', [])`. -/
structure RegistryData where
  dependencies : Option (List RawDep)
deriving DecidableEq

/-- Outcome of the HTTP layer as observed inside the `try` block:
a `requests.exceptions.RequestException` (transport error, timeout or a
`raise_for_status` failure), a `json.JSONDecodeError` from `response.json()`,
or a decoded body. -/
inductive RegistryResponse where
  | transportError
  | jsonDecodeError
  | ok (data : RegistryData)
deriving DecidableEq

/-- Building `dep_info` for one dependency object: `dep['crate_id']` and
`dep['req']` raise `KeyError` when absent, `dep.get('kind', 'normal')`
defaults. The `Except` error carries the raised exception. -/
def parseDep (d : RawDep) : Except String Dep :=
  match d.crate_id with
  | none => .error "KeyError: crate_id"
  | some n =>
    match d.req with
    | none => .error "KeyError: req"
    | some r => .ok { name := n, version := r, kind := d.kind.getD "normal" }

/-- The `for dep in data.get('dependencies', [])` loop: stops at the first
raised `KeyError`. -/
def parseDeps : List RawDep → Except String (List Dep)
  | [] => .ok []
  | d :: ds => do
    let dep ← parseDep d
    let rest ← parseDeps ds
    .ok (dep :: rest)

/-- `fetch_dependencies`: the two `except` clauses catch exactly
`requests.exceptions.RequestException` and `json.JSONDecodeError` and return
`[]`; a `KeyError` raised while reading a dependency object is not caught and
propagates (`Except.error`). -/
def fetch_dependencies (resp : RegistryResponse) : Except String (List Dep) :=
  match resp with
  | .transportError => .ok []
  | .jsonDecodeError => .ok []
  | .ok data => parseDeps (data.dependencies.getD [])

/-- A response whose single dependency object lacks `crate_id`. -/
def badResponse : RegistryResponse :=
  .ok { dependencies := some [{ crate_id := none, req := some "1.0", kind := none }] }

/-- C3 counterexample: on a response whose dependency object lacks `crate_id`,
`fetch_dependencies` raises an uncaught `KeyError` instead of returning a
list, so it does propagate an exception to its caller. -/
theorem fetch_dependencies_keyerror :
    fetch_dependencies badResponse = Except.error "KeyError: crate_id" := rfl

/-- Claim C3 (amended): transport failures and malformed JSON are caught at the
boundary and yield the empty list, and a response all of whose dependency
objects carry `crate_id` and `req` parses to a list; but (see the
counterexample) a dependency object lacking one of those fields raises an
uncaught `KeyError`. -/
theorem fetch_dependencies_amended :
    fetch_dependencies RegistryResponse.transportError = Except.ok [] ∧
    fetch_dependencies RegistryResponse.jsonDecodeError = Except.ok [] ∧
    ∀ data : RegistryData,
      (∀ d ∈ data.dependencies.getD [], d.crate_id.isSome ∧ d.req.isSome) →
      ∃ l, fetch_dependencies (RegistryResponse.ok data) = Except.ok l := by
  refine ⟨rfl, rfl, ?_⟩
  intro data h
  have main : ∀ ds : List RawDep,
      (∀ d ∈ ds, d.crate_id.isSome ∧ d.req.isSome) →
      ∃ l, parseDeps ds = Except.ok l := by
    intro ds
    induction ds with
    | nil => intro _; exact ⟨[], rfl⟩
    | cons d ds ih =>
      intro hall
      obtain ⟨hc, hr⟩ := hall d (List.mem_cons_self d ds)
      obtain ⟨n, hn⟩ := Option.isSome_iff_exists.mp hc
      obtain ⟨r, hrr⟩ := Option.isSome_iff_exists.mp hr
      obtain ⟨l, hl⟩ := ih fun x hx => hall x (List.mem_cons_of_mem d hx)
      refine ⟨{ name := n, version := r, kind := d.kind.getD "normal" } :: l, ?_⟩
      simp [parseDeps, parseDep, hn, hrr, hl, Bind.bind, Except.bind]
  obtain ⟨l, hl⟩ := main _ h
  exact ⟨l, by simp [fetch_dependencies, hl]⟩

/-- A well-formed dependency object used to instantiate the amended C3 claim. -/
theorem fetch_dependencies_amended_witness :
    (∀ d ∈ (RegistryData.mk (some [⟨some "serde", some "^1.0", none⟩])).dependencies.getD [],
        d.crate_id.isSome ∧ d.req.isSome) ∧
    ∃ l, fetch_dependencies
        (RegistryResponse.ok (RegistryData.mk (some [⟨some "serde", some "^1.0", none⟩]))) =
      Except.ok l :=
  ⟨by decide, fetch_dependencies_amended.2.2 _ (by decide)⟩

/- ### Version normalization claims -/

/-- C4 counterexample: `_extract_version(">=1.0,<2.0")` is not `">=1.0"`,
because the `'='` characters are stripped before the comma split. -/
theorem extract_version_compound_ne :
    extract_version ">=1.0,<2.0" ≠ ">=1.0" := by decide

/-- Claim C4 (amended): `_extract_version(">=1.0,<2.0")` returns exactly
`">1.0"`: stripping `^`, `~`, `=` yields `">1.0,<2.0"` and the part before the
first comma is `">1.0"`. -/
theorem extract_version_compound_eq :
    extract_version ">=1.0,<2.0" = ">1.0" := rfl

/-- Claim C9: `_extract_version` is a pure function (a Lean `def`) and is
idempotent: applying it twice gives the same result as applying it once. -/
theorem extract_version_idempotent (x : String) :
    extract_version (extract_version x) = extract_version x := by
  unfold extract_version
  set clean := x.toList.filter keepChar with hclean
  have hkeep : ∀ c ∈ clean, keepChar c = true := by
    intro c hc
    exact (List.mem_filter.mp hc).2
  by_cases hcomma : ',' ∈ clean
  · rw [if_pos hcomma]
    set r := clean.takeWhile (fun c => c != ',') with hr
    have hrsub : ∀ c ∈ r, c ∈ clean := fun c hc =>
      List.Sublist.mem hc (List.takeWhile_sublist _)
    have hfilter : r.filter keepChar = r :=
      List.filter_eq_self.mpr fun c hc => hkeep c (hrsub c hc)
    have hnc : ',' ∉ r := by
      intro hc
      have := List.mem_takeWhile_imp hc
      simp at this
    have htl : (String.mk r).toList = r := rfl
    simp only [htl, hfilter, if_neg hnc]
  · rw [if_neg hcomma]
    have htl : (String.mk clean).toList = clean := rfl
    have hfilter : clean.filter keepChar = clean :=
      List.filter_eq_self.mpr hkeep
    simp only [htl, hfilter, if_neg hcomma]

/- ### The graph builder (`_bfs_with_recursion`) -/

/-- Mutable state of one build run: `self.graph` (a `defaultdict(list)`,
modelled as an insertion-ordered association list that materializes a key on
its first append), `self.visited` (a set of `(package, version)` tuples),
`self.cycles`, plus an event log of the `(package, version)` pairs for which
`fetch_dependencies` was actually called (the observable HTTP requests). -/
structure BuildSt where
  graph : List (String × List String)
  visited : List (String × String)
  cycles : List (String × String)
  fetched : List (String × String)
deriving DecidableEq

/-- `self.graph[key].append(val)` on a `defaultdict(list)`: an existing key
keeps its position and grows its list; a fresh key is materialized at the
end of the insertion order. -/
def graphAppend : List (String × List String) → String → String → List (String × List String)
  | [], k, v => [(k, [v])]
  | (k', vs) :: rest, k, v =>
    if k' = k then (k, vs ++ [v]) :: rest else (k', vs) :: graphAppend rest k v

/-- The `for dep in dependencies` loop body of `_bfs_with_recursion`: append
the edge `parent@version -> dep@depVersion` unconditionally, then recurse on
the dependency (the recursive call is abstracted as `rec`). -/
def bfs_list (rec : String → String → BuildSt → Option BuildSt) (parentKey : String) :
    List Dep → BuildSt → Option BuildSt
  | [], st => some st
  | d :: ds, st =>
    let childKey := nodeKey d.name (extract_version d.version)
    let st1 : BuildSt := { st with graph := graphAppend st.graph parentKey childKey }
    (rec d.name (extract_version d.version) st1).bind fun st2 => bfs_list rec parentKey ds st2

/-- `_bfs_with_recursion(package, version, current_depth)`. `fuel` is the
structural recursion budget; `none` models a call tree deeper than the budget
(the theorem `build_terminates` shows the canonical budget `max_depth + 2` is
never exhausted). Order of checks follows the source: depth bound, visited
set (recording a cycle), visited add, filter test, fetch, dependency loop. -/
def bfs_with_recursion (f : Fetcher) (filt : String) (maxDepth : Nat) :
    Nat → String → String → Nat → BuildSt → Option BuildSt
  | 0, _, _, _, _ => none
  | fuel + 1, pkg, ver, depth, st =>
    if depth > maxDepth then some st
    else if memB (pkg, ver) st.visited then
      some { st with cycles := st.cycles ++ [(pkg, ver)] }
    else
      let stVis : BuildSt := { st with visited := (pkg, ver) :: st.visited }
      if filterMatches filt pkg then some stVis
      else
        let st2 : BuildSt := { stVis with fetched := stVis.fetched ++ [(pkg, ver)] }
        bfs_list (fun p v s => bfs_with_recursion f filt maxDepth fuel p v (depth + 1) s)
          (nodeKey pkg ver) (f pkg ver) st2

/-- `build_dependency_graph`: run the traversal from the root at depth 0 on
fresh state, with fuel covering every depth the bound admits. -/
def build (f : Fetcher) (filt : String) (maxDepth : Nat) (pkg ver : String) : Option BuildSt :=
  bfs_with_recursion f filt maxDepth (maxDepth + 2) pkg ver 0
    { graph := [], visited := [], cycles := [], fetched := [] }

/-- The end-to-end scenario fetcher of the spec: `root@1.0` depends on
`left` (req `1.0`) and `right` (req `^2.0`); everything else is a leaf. -/
def exF : Fetcher := fun p v =>
  if p = "root" ∧ v = "1.0" then
    [{ name := "left", version := "1.0", kind := "normal" },
     { name := "right", version := "^2.0", kind := "normal" }]
  else []

/-- A two-node cyclic registry: `A@1 -> B@1` and `B@1 -> A@1`. -/
def fcyc : Fetcher := fun p v =>
  if p = "A" ∧ v = "1" then [{ name := "B", version := "1", kind := "normal" }]
  else if p = "B" ∧ v = "1" then [{ name := "A", version := "1", kind := "normal" }]
  else []

/-- A registry where `parent@1` depends on `Bar` (req `^2.0`) and `Bar@2.0`
itself has a dependency, so that not expanding `Bar` is observable. -/
def fBar : Fetcher := fun p v =>
  if p = "parent" ∧ v = "1" then [{ name := "Bar", version := "^2.0", kind := "normal" }]
  else if p = "Bar" ∧ v = "2.0" then [{ name := "baz", version := "1.0", kind := "normal" }]
  else []

/-- C2 counterexample: in the end-to-end scenario the build's graph mapping
contains only the key `root@1.0`; the traversed leaves `left@1.0` and
`right@2.0` are not present as keys at all (a `defaultdict` key is only
materialized by an append), contradicting the claimed invariant that they
appear with empty edge lists. -/
theorem build_leaf_keys_absent :
    build exF "" 2 "root" "1.0" = some
      { graph := [("root@1.0", ["left@1.0", "right@2.0"])],
        visited := [("right", "2.0"), ("left", "1.0"), ("root", "1.0")],
        cycles := [],
        fetched := [("root", "1.0"), ("left", "1.0"), ("right", "2.0")] } ∧
    "left@1.0" ∉ [("root@1.0", ["left@1.0", "right@2.0"])].map Prod.fst ∧
    "right@2.0" ∉ [("root@1.0", ["left@1.0", "right@2.0"])].map Prod.fst :=
  ⟨rfl, by decide, by decide⟩

/-- Claim C5: on the cyclic registry, with `max_depth ≥ 2`, building from
`A@1` records the re-entered node `A@1` in the cycle list and both edges
`A@1 -> B@1` and `B@1 -> A@1` in the graph. -/
theorem cycle_detected (maxD : Nat) (h : 2 ≤ maxD) :
    build fcyc "" maxD "A" "1" = some
      { graph := [("A@1", ["B@1"]), ("B@1", ["A@1"])],
        visited := [("B", "1"), ("A", "1")],
        cycles := [("A", "1")],
        fetched := [("A", "1"), ("B", "1")] } := by
  obtain ⟨k, rfl⟩ : ∃ k, maxD = k + 2 := ⟨maxD - 2, by omega⟩
  rfl

/-- Instantiation of `cycle_detected` at `max_depth = 2`. -/
theorem cycle_detected_witness :
    build fcyc "" 2 "A" "1" = some
      { graph := [("A@1", ["B@1"]), ("B@1", ["A@1"])],
        visited := [("B", "1"), ("A", "1")],
        cycles := [("A", "1")],
        fetched := [("A", "1"), ("B", "1")] } :=
  cycle_detected 2 (by decide)

/-- Node key of a `(package, version)` pair. -/
def keyOf (n : String × String) : String := nodeKey n.1 n.2

/-- The edge targets a dependency list contributes, as `(name, version)` pairs
after version normalization. -/
def depPairs (f : Fetcher) (n : String × String) : List (String × String) :=
  (f n.1 n.2).map fun d => (d.name, extract_version d.version)

/-- Helper: folding the edge-append over a single-key graph extends that
key's list. -/
theorem foldl_graphAppend_single (k : String) (ck : Dep → String) :
    ∀ (ds : List Dep) (acc : List String),
      ds.foldl (fun g d => graphAppend g k (ck d)) [(k, acc)] = [(k, acc ++ ds.map ck)] := by
  intro ds
  induction ds with
  | nil => intro acc; simp
  | cons d ds ih =>
    intro acc
    have h1 : graphAppend [(k, acc)] k (ck d) = [(k, acc ++ [ck d])] := by
      simp [graphAppend]
    simp only [List.foldl_cons, h1, ih, List.map_cons]
    simp

/-- Helper: when the recursive call is the identity (as it is for depth-cut
children), the dependency loop is a pure fold of edge appends. -/
theorem bfs_list_const (rec : String → String → BuildSt → Option BuildSt)
    (hrec : ∀ p v s, rec p v s = some s) (k : String) :
    ∀ (ds : List Dep) (st : BuildSt),
      bfs_list rec k ds st =
        some { st with
               graph := ds.foldl
                 (fun g d => graphAppend g k (nodeKey d.name (extract_version d.version)))
                 st.graph } := by
  intro ds
  induction ds with
  | nil => intro st; rfl
  | cons d ds ih =>
    intro st
    simp only [bfs_list, hrec, Option.some_bind]
    rw [ih]
    rfl

/-- Claim C6: with `max_depth = 0` (and no filter) the graph contains exactly
the root's direct dependency edges from one fetch — only the root is fetched,
only the root is visited, and no other node contributes edges. -/
theorem build_depth_zero (f : Fetcher) (p v : String) :
    build f "" 0 p v = some
      { graph := if f p v = [] then []
          else [(nodeKey p v, (f p v).map fun d => nodeKey d.name (extract_version d.version))],
        visited := [(p, v)],
        cycles := [],
        fetched := [(p, v)] } := by
  have hstep : build f "" 0 p v =
      bfs_list (fun p' v' s => bfs_with_recursion f "" 0 1 p' v' 1 s) (nodeKey p v) (f p v)
        { graph := [], visited := [(p, v)], cycles := [], fetched := [(p, v)] } := rfl
  have hrec : ∀ p' v' s, bfs_with_recursion f "" 0 1 p' v' 1 s = some s := fun _ _ _ => rfl
  rw [hstep, bfs_list_const _ hrec]
  cases hd : f p v with
  | nil => simp
  | cons d ds =>
    simp only [List.foldl_cons]
    have h0 : graphAppend [] (nodeKey p v) (nodeKey d.name (extract_version d.version)) =
        [(nodeKey p v, [nodeKey d.name (extract_version d.version)])] := rfl
    rw [h0, foldl_graphAppend_single]
    simp

/-- Helper: a dependency loop whose recursive calls all succeed succeeds. -/
theorem bfs_list_isSome (rec : String → String → BuildSt → Option BuildSt)
    (hrec : ∀ p v s, (rec p v s).isSome) (k : String) :
    ∀ (ds : List Dep) (st : BuildSt), (bfs_list rec k ds st).isSome := by
  intro ds
  induction ds with
  | nil => intro st; rfl
  | cons d ds ih =>
    intro st
    simp only [bfs_list]
    obtain ⟨s', hs'⟩ := Option.isSome_iff_exists.mp (hrec d.name (extract_version d.version) _)
    rw [hs', Option.some_bind]
    exact ih s'

/-- Helper for C8: the traversal never exhausts a fuel budget of at least
`max_depth + 2 - depth` — the depth bound cuts every branch off first. -/
theorem bfs_with_recursion_isSome (f : Fetcher) (filt : String) (maxD : Nat) :
    ∀ (fuel : Nat) (p v : String) (depth : Nat) (st : BuildSt),
      1 ≤ fuel → maxD + 2 ≤ fuel + depth →
      (bfs_with_recursion f filt maxD fuel p v depth st).isSome := by
  intro fuel
  induction fuel with
  | zero => intro p v depth st h1 _; omega
  | succ fuel ih =>
    intro p v depth st _ hsum
    simp only [bfs_with_recursion]
    by_cases hd : depth > maxD
    · rw [if_pos hd]; rfl
    · rw [if_neg hd]
      by_cases hv : memB (p, v) st.visited
      · rw [if_pos hv]; rfl
      · rw [if_neg hv]
        by_cases hf : filterMatches filt p
        · rw [if_pos hf]; rfl
        · rw [if_neg hf]
          exact bfs_list_isSome _ (fun p' v' s => ih p' v' (depth + 1) s (by omega) (by omega)) _ _ _

/-- Claim C8: for every fetcher (cyclic or infinite included), every filter
and every `max_depth ≥ 0`, the graph-building traversal terminates: the
canonical fuel budget is never exhausted and `build` returns a final state. -/
theorem build_terminates (f : Fetcher) (filt : String) (maxD : Nat) (p v : String) :
    ∃ st', build f filt maxD p v = some st' := by
  have h := bfs_with_recursion_isSome f filt maxD (maxD + 2) p v 0
    { graph := [], visited := [], cycles := [], fetched := [] } (by omega) (by omega)
  exact Option.isSome_iff_exists.mp h

/- ### Builder invariants (filter, graph keys, fetched nodes) -/

/-- The keys materialized in the graph mapping. -/
def graphKeys (g : List (String × List String)) : List String := g.map Prod.fst

theorem graphKeys_append_self (g : List (String × List String)) (k x : String) :
    k ∈ graphKeys (graphAppend g k x) := by
  induction g with
  | nil => simp [graphAppend, graphKeys]
  | cons e rest ih =>
    obtain ⟨k', vs⟩ := e
    by_cases h : k' = k
    · simp [graphAppend, h, graphKeys]
    · simp only [graphAppend, if_neg h, graphKeys, List.map_cons, List.mem_cons]
      exact Or.inr ih

theorem graphKeys_append_mono (g : List (String × List String)) (k x k' : String)
    (h : k' ∈ graphKeys g) : k' ∈ graphKeys (graphAppend g k x) := by
  induction g with
  | nil => simp [graphKeys] at h
  | cons e rest ih =>
    obtain ⟨k0, vs⟩ := e
    simp only [graphKeys, List.map_cons, List.mem_cons] at h
    simp only [graphAppend]
    by_cases he : k0 = k
    · rw [if_pos he]
      simp only [graphKeys, List.map_cons, List.mem_cons]
      rcases h with h | h
      · exact Or.inl (by rw [h, he])
      · exact Or.inr h
    · rw [if_neg he]
      simp only [graphKeys, List.map_cons, List.mem_cons]
      rcases h with h | h
      · exact Or.inl h
      · exact Or.inr (ih h)

theorem graphKeys_append_sub (g : List (String × List String)) (k x : String) :
    ∀ k' ∈ graphKeys (graphAppend g k x), k' = k ∨ k' ∈ graphKeys g := by
  induction g with
  | nil => simp [graphAppend, graphKeys]
  | cons e rest ih =>
    obtain ⟨k0, vs⟩ := e
    intro k' hk'
    simp only [graphAppend] at hk'
    by_cases he : k0 = k
    · rw [if_pos he] at hk'
      simp only [graphKeys, List.map_cons, List.mem_cons] at hk' ⊢
      rcases hk' with h1 | h1
      · exact Or.inl h1
      · exact Or.inr (Or.inr h1)
    · rw [if_neg he] at hk'
      simp only [graphKeys, List.map_cons, List.mem_cons] at hk' ⊢
      rcases hk' with h1 | h1
      · exact Or.inr (Or.inl h1)
      · rcases ih k' h1 with h2 | h2
        · exact Or.inl h2
        · exact Or.inr (Or.inr h2)

/-- State growth across one builder call: fetch log entries and graph keys are
never removed. -/
def BExt (st st' : BuildSt) : Prop :=
  (∀ n ∈ st.fetched, n ∈ st'.fetched) ∧ (∀ k ∈ graphKeys st.graph, k ∈ graphKeys st'.graph)

theorem BExt_refl (st : BuildSt) : BExt st st := ⟨fun _ h => h, fun _ h => h⟩

theorem BExt_trans {a b c : BuildSt} (h1 : BExt a b) (h2 : BExt b c) : BExt a c :=
  ⟨fun n hn => h2.1 n (h1.1 n hn), fun k hk => h2.2 k (h1.2 k hk)⟩

theorem bfs_list_ext (rec : String → String → BuildSt → Option BuildSt)
    (hrec : ∀ p v s s', rec p v s = some s' → BExt s s') (k : String) :
    ∀ (ds : List Dep) (st st' : BuildSt), bfs_list rec k ds st = some st' → BExt st st' := by
  intro ds
  induction ds with
  | nil =>
    intro st st' h
    obtain rfl : st = st' := by simpa [bfs_list] using h
    exact BExt_refl st
  | cons d ds ih =>
    intro st st' h
    simp only [bfs_list] at h
    obtain ⟨mid, hmid, hrest⟩ := Option.bind_eq_some.mp h
    have e1 : BExt st { st with graph := graphAppend st.graph k (nodeKey d.name (extract_version d.version)) } :=
      ⟨fun n hn => hn, fun k' hk' => graphKeys_append_mono _ _ _ _ hk'⟩
    exact BExt_trans e1 (BExt_trans (hrec _ _ _ _ hmid) (ih _ _ hrest))

theorem bfs_with_recursion_ext (f : Fetcher) (filt : String) (maxD : Nat) :
    ∀ (fuel : Nat) (p v : String) (depth : Nat) (st st' : BuildSt),
      bfs_with_recursion f filt maxD fuel p v depth st = some st' → BExt st st' := by
  intro fuel
  induction fuel with
  | zero => intro p v depth st st' h; simp [bfs_with_recursion] at h
  | succ fuel ih =>
    intro p v depth st st' h
    simp only [bfs_with_recursion] at h
    by_cases hd : depth > maxD
    · rw [if_pos hd] at h
      obtain rfl : st = st' := by simpa using h
      exact BExt_refl st
    · rw [if_neg hd] at h
      by_cases hv : memB (p, v) st.visited
      · rw [if_pos hv] at h
        obtain rfl : { st with cycles := st.cycles ++ [(p, v)] } = st' := by simpa using h
        exact ⟨fun n hn => hn, fun k hk => hk⟩
      · rw [if_neg hv] at h
        by_cases hf : filterMatches filt p
        · rw [if_pos hf] at h
          obtain rfl : { st with visited := (p, v) :: st.visited } = st' := by simpa using h
          exact ⟨fun n hn => hn, fun k hk => hk⟩
        · rw [if_neg hf] at h
          have hext := bfs_list_ext _ (fun p' v' s s' hs => ih p' v' (depth + 1) s s' hs) _ _ _ _ h
          refine BExt_trans ?_ hext
          exact ⟨fun n hn => List.mem_append_left _ hn, fun k hk => hk⟩

/-- Combined builder invariant: fetched nodes passed the filter; every graph
key is the key of some fetched node; every fetched node with a non-empty
dependency list has its key materialized in the graph. -/
def BInv (f : Fetcher) (filt : String) (st : BuildSt) : Prop :=
  (∀ n ∈ st.fetched, filterMatches filt n.1 = false) ∧
  (∀ k ∈ graphKeys st.graph, ∃ n ∈ st.fetched, k = keyOf n) ∧
  (∀ n ∈ st.fetched, f n.1 n.2 ≠ [] → keyOf n ∈ graphKeys st.graph)

theorem bfs_list_inv (f : Fetcher) (filt : String)
    (rec : String → String → BuildSt → Option BuildSt)
    (hrecExt : ∀ p v s s', rec p v s = some s' → BExt s s')
    (hrecInv : ∀ p v s s', rec p v s = some s' → BInv f filt s → BInv f filt s')
    (k : String) :
    ∀ (ds : List Dep) (st st' : BuildSt),
      bfs_list rec k ds st = some st' →
      BInv f filt st → (∃ n0 ∈ st.fetched, k = keyOf n0) →
      BInv f filt st' := by
  intro ds
  induction ds with
  | nil =>
    intro st st' h hinv _
    obtain rfl : st = st' := by simpa [bfs_list] using h
    exact hinv
  | cons d ds ih =>
    intro st st' h hinv hn0
    simp only [bfs_list] at h
    obtain ⟨mid, hmid, hrest⟩ := Option.bind_eq_some.mp h
    set stE : BuildSt :=
      { st with graph := graphAppend st.graph k (nodeKey d.name (extract_version d.version)) } with hstE
    have hinvE : BInv f filt stE := by
      refine ⟨hinv.1, ?_, ?_⟩
      · intro k' hk'
        rcases graphKeys_append_sub _ _ _ k' hk' with rfl | hk'
        · exact hn0
        · exact hinv.2.1 k' hk'
      · intro n hn hne
        exact graphKeys_append_mono _ _ _ _ (hinv.2.2 n hn hne)
    have hinvM : BInv f filt mid := hrecInv _ _ _ _ hmid hinvE
    have hn0M : ∃ n0 ∈ mid.fetched, k = keyOf n0 := by
      obtain ⟨n0, hn0f, hk⟩ := hn0
      exact ⟨n0, (hrecExt _ _ _ _ hmid).1 n0 hn0f, hk⟩
    exact ih _ _ hrest hinvM hn0M

theorem bfs_with_recursion_inv (f : Fetcher) (filt : String) (maxD : Nat) :
    ∀ (fuel : Nat) (p v : String) (depth : Nat) (st st' : BuildSt),
      bfs_with_recursion f filt maxD fuel p v depth st = some st' →
      BInv f filt st → BInv f filt st' := by
  intro fuel
  induction fuel with
  | zero => intro p v depth st st' h; simp [bfs_with_recursion] at h
  | succ fuel ih =>
    intro p v depth st st' h hinv
    simp only [bfs_with_recursion] at h
    by_cases hd : depth > maxD
    · rw [if_pos hd] at h
      obtain rfl : st = st' := by simpa using h
      exact hinv
    · rw [if_neg hd] at h
      by_cases hv : memB (p, v) st.visited
      · rw [if_pos hv] at h
        obtain rfl : { st with cycles := st.cycles ++ [(p, v)] } = st' := by simpa using h
        exact hinv
      · rw [if_neg hv] at h
        by_cases hf : filterMatches filt p
        · rw [if_pos hf] at h
          obtain rfl : { st with visited := (p, v) :: st.visited } = st' := by simpa using h
          exact hinv
        · rw [if_neg hf] at h
          have hfilt : filterMatches filt p = false := by
            exact Bool.not_eq_true _ ▸ by simpa using hf
          set st2 : BuildSt :=
            { st with visited := (p, v) :: st.visited, fetched := st.fetched ++ [(p, v)] } with hst2
          have hinv2base :
              (∀ n ∈ st2.fetched, filterMatches filt n.1 = false) := by
            intro n hn
            rcases List.mem_append.mp hn with hn | hn
            · exact hinv.1 n hn
            · obtain rfl : n = (p, v) := by simpa using hn
              exact hfilt
          cases hdeps : f p v with
          | nil =>
            rw [hdeps] at h
            obtain rfl : st2 = st' := by simpa [bfs_list] using h
            refine ⟨hinv2base, ?_, ?_⟩
            · intro k hk
              obtain ⟨n, hn, hkn⟩ := hinv.2.1 k hk
              exact ⟨n, List.mem_append_left _ hn, hkn⟩
            · intro n hn hne
              rcases List.mem_append.mp hn with hn | hn
              · exact hinv.2.2 n hn hne
              · obtain rfl : n = (p, v) := by simpa using hn
                simp only [keyOf] at *
                exact absurd hdeps hne
          | cons d ds =>
            rw [hdeps] at h
            simp only [bfs_list] at h
            obtain ⟨mid, hmid, hrest⟩ := Option.bind_eq_some.mp h
            set stE : BuildSt :=
              { st2 with graph :=
                  graphAppend st2.graph (nodeKey p v) (nodeKey d.name (extract_version d.version)) }
              with hstE
            have hpvE : (p, v) ∈ stE.fetched := by
              simp [hstE, hst2]
            have hinvE : BInv f filt stE := by
              refine ⟨hinv2base, ?_, ?_⟩
              · intro k hk
                rcases graphKeys_append_sub _ _ _ k hk with rfl | hk
                · exact ⟨(p, v), hpvE, rfl⟩
                · obtain ⟨n, hn, hkn⟩ := hinv.2.1 k hk
                  exact ⟨n, List.mem_append_left _ hn, hkn⟩
              · intro n hn hne
                rcases List.mem_append.mp hn with hn | hn
                · exact graphKeys_append_mono _ _ _ _ (hinv.2.2 n hn hne)
                · obtain rfl : n = (p, v) := by simpa using hn
                  exact graphKeys_append_self _ _ _
            have hinvM : BInv f filt mid := ih _ _ _ _ _ hmid hinvE
            have hextM : BExt stE mid :=
              bfs_with_recursion_ext f filt maxD fuel _ _ _ _ _ hmid
            refine bfs_list_inv f filt _
              (fun p' v' s s' hs => bfs_with_recursion_ext f filt maxD fuel p' v' (depth + 1) s s' hs)
              (fun p' v' s s' hs hi => ih p' v' (depth + 1) s s' hs hi)
              _ _ _ _ hrest hinvM ⟨(p, v), hextM.1 _ hpvE, rfl⟩

/-- Claim C2 (amended): after a completed build, every traversed (fetched)
node whose fetch returned at least one dependency appears as a key in the
graph mapping; a traversed node whose fetch returned no dependencies is not
materialized as a key (see the counterexample: `left@1.0` and `right@2.0`
are absent, not present with empty lists). -/
theorem build_fetched_nonempty_key (f : Fetcher) (filt : String) (maxD : Nat)
    (p v : String) (st' : BuildSt) (h : build f filt maxD p v = some st') :
    ∀ n ∈ st'.fetched, f n.1 n.2 ≠ [] → keyOf n ∈ graphKeys st'.graph := by
  have hinv : BInv f filt st' := by
    refine bfs_with_recursion_inv f filt maxD (maxD + 2) p v 0 _ st' h ?_
    refine ⟨?_, ?_, ?_⟩ <;> intro n hn <;> simp [graphKeys] at hn
  exact hinv.2.2

/-- Instantiation of `build_fetched_nonempty_key` on the end-to-end scenario
at the fetched node `("root", "1.0")`, whose fetch is non-empty. -/
theorem build_fetched_nonempty_key_witness :
    ("root", "1.0") ∈ [(("root" : String), ("1.0" : String)), ("left", "1.0"), ("right", "2.0")] ∧
    exF "root" "1.0" ≠ [] ∧
    keyOf ("root", "1.0") ∈ graphKeys [("root@1.0", ["left@1.0", "right@2.0"])] :=
  ⟨by decide, by decide,
    build_fetched_nonempty_key exF "" 2 "root" "1.0"
      { graph := [("root@1.0", ["left@1.0", "right@2.0"])],
        visited := [("right", "2.0"), ("left", "1.0"), ("root", "1.0")],
        cycles := [],
        fetched := [("root", "1.0"), ("left", "1.0"), ("right", "2.0")] } rfl
      ("root", "1.0") (by decide) (by decide)⟩

/-- Claim C7: with `filter_substring = "b"`, a dependency named `Bar` is
recorded as an edge target but never expanded. Concretely, on `fBar` the edge
`parent@1 -> Bar@2.0` is in the graph while only `parent@1` was fetched (so
`Bar`'s dependencies were never requested and no `Bar@*` key exists); and in
general no node whose package name matches the filter is ever fetched, and
every graph key is the key of a fetched (hence unfiltered) node. -/
theorem filter_blocks_expansion :
    (build fBar "b" 3 "parent" "1" = some
      { graph := [("parent@1", ["Bar@2.0"])],
        visited := [("Bar", "2.0"), ("parent", "1")],
        cycles := [],
        fetched := [("parent", "1")] }) ∧
    (∀ (f : Fetcher) (maxD : Nat) (p v : String) (st' : BuildSt),
      build f "b" maxD p v = some st' →
      (∀ n ∈ st'.fetched, filterMatches "b" n.1 = false) ∧
      (∀ k ∈ graphKeys st'.graph, ∃ n ∈ st'.fetched, k = keyOf n)) := by
  refine ⟨rfl, ?_⟩
  intro f maxD p v st' h
  have hinv : BInv f "b" st' := by
    refine bfs_with_recursion_inv f "b" maxD (maxD + 2) p v 0 _ st' h ?_
    refine ⟨?_, ?_, ?_⟩ <;> intro n hn <;> simp [graphKeys] at hn
  exact ⟨hinv.1, hinv.2.1⟩

/-- Instantiation of the general part of `filter_blocks_expansion` on `fBar`:
`Bar` does not match the fetched set, whose single member is unfiltered. -/
theorem filter_blocks_expansion_witness :
    (∀ n ∈ [("parent", "1")], filterMatches "b" n.1 = false) ∧
    (∀ k ∈ graphKeys [("parent@1", ["Bar@2.0"])],
      ∃ n ∈ [(("parent" : String), ("1" : String))], k = keyOf n) :=
  filter_blocks_expansion.2 fBar 3 "parent" "1"
    { graph := [("parent@1", ["Bar@2.0"])],
      visited := [("Bar", "2.0"), ("parent", "1")],
      cycles := [],
      fetched := [("parent", "1")] } rfl

/- ### The load-order computation (`_calculate_load_order`) -/

/-- State of the load-order DFS: its own `visited` set of node keys, the
post-order `load_order` accumulator, and an event log of the
`(package, version)` pairs for which `fetch_dependencies` was called. -/
structure LoadSt where
  visited : List String
  order : List String
  fetched : List (String × String)
deriving DecidableEq

/-- The `for dep in dependencies` loop of the load-order `dfs`: recurse on
each dependency in order (the recursive call is abstracted as `rec`). -/
def dfs_list (rec : String → String → LoadSt → Option LoadSt) :
    List Dep → LoadSt → Option LoadSt
  | [], st => some st
  | d :: ds, st =>
    (rec d.name (extract_version d.version) st).bind fun st1 => dfs_list rec ds st1

/-- The inner `dfs(package, version)` of `_calculate_load_order`: skip an
already-visited node key, otherwise mark it visited, fetch its dependencies,
recurse on each, and append the node key after all its dependencies. `fuel`
bounds the recursion depth (the Python function has no bound of its own and
diverges on an infinite registry; `none` models a traversal that does not
complete within the budget). -/
def dfs_load (f : Fetcher) : Nat → String → String → LoadSt → Option LoadSt
  | 0, _, _, _ => none
  | fuel + 1, pkg, ver, st =>
    if memB (nodeKey pkg ver) st.visited then some st
    else
      let st1 : LoadSt := { visited := nodeKey pkg ver :: st.visited, order := st.order,
                            fetched := st.fetched ++ [(pkg, ver)] }
      (dfs_list (fun p v s => dfs_load f fuel p v s) (f pkg ver) st1).map
        fun st2 => { st2 with order := st2.order ++ [nodeKey pkg ver] }

/-- `_calculate_load_order` with the final state exposed: run the DFS from the
root on fresh state. -/
def calculate_load_order_full (f : Fetcher) (fuel : Nat) (pkg ver : String) : Option LoadSt :=
  dfs_load f fuel pkg ver { visited := [], order := [], fetched := [] }

/-- `_calculate_load_order`: the accumulated post-order list, reversed
(`return load_order[::-1]`). -/
def calculate_load_order (f : Fetcher) (fuel : Nat) (pkg ver : String) : Option (List String) :=
  (calculate_load_order_full f fuel pkg ver).map fun st => st.order.reverse

/-- C1 counterexample: on the spec's own end-to-end scenario the returned
sequence is `["root@1.0", "right@2.0", "left@1.0"]` — the discovered edges
`root@1.0 -> left@1.0` and `root@1.0 -> right@2.0` have the child AFTER the
parent, and the root key is first, not last. -/
theorem load_order_root_first :
    calculate_load_order exF 10 "root" "1.0" =
      some ["root@1.0", "right@2.0", "left@1.0"] ∧
    ["root@1.0", "right@2.0", "left@1.0"].getLast? ≠ some "root@1.0" :=
  ⟨rfl, by decide⟩

/-- Claim C10: whenever the load-order computation completes, the returned
sequence is non-empty and its first element is the root node key (the root is
appended last in the post-order walk and the list is reversed on return). -/
theorem load_order_head (f : Fetcher) (fuel : Nat) (p v : String) (l : List String)
    (h : calculate_load_order f fuel p v = some l) :
    l ≠ [] ∧ l.head? = some (nodeKey p v) := by
  simp only [calculate_load_order, calculate_load_order_full] at h
  obtain ⟨stf, hstf, rfl⟩ := Option.map_eq_some'.mp h
  cases fuel with
  | zero => simp [dfs_load] at hstf
  | succ fuel =>
    have hmem : memB (nodeKey p v) ([] : List String) = false := rfl
    simp only [dfs_load, hmem, Bool.false_eq_true, if_false] at hstf
    obtain ⟨st2, _, rfl⟩ := Option.map_eq_some'.mp hstf
    simp

/-- Instantiation of `load_order_head` on the end-to-end scenario. -/
theorem load_order_head_witness :
    ["root@1.0", "right@2.0", "left@1.0"] ≠ ([] : List String) ∧
    ["root@1.0", "right@2.0", "left@1.0"].head? = some (nodeKey "root" "1.0") :=
  load_order_head exF 10 "root" "1.0" _ rfl

/- ### Topological ordering of the load order (amended claim C1) -/

/-- The dependency relation on node keys discovered by a traversal with fetch
log `lg`: `k -> k'` when some logged (fetched) pair with key `k` lists a
dependency whose key is `k'`. -/
def DRel (f : Fetcher) (lg : List (String × String)) (k k' : String) : Prop :=
  ∃ n, n ∈ lg ∧ keyOf n = k ∧ k' ∈ (depPairs f n).map keyOf

/-- Acyclicity of the discovered dependency relation. -/
def AcyclicIn (f : Fetcher) (lg : List (String × String)) : Prop :=
  ∀ k, ¬ Relation.TransGen (DRel f lg) k k

/-- State growth across one load-order call: visited only grows, order and
fetch log grow by appending at the end. -/
def LExt (st st' : LoadSt) : Prop :=
  (∀ k ∈ st.visited, k ∈ st'.visited) ∧
  (∃ t, st'.order = st.order ++ t) ∧
  (∃ t, st'.fetched = st.fetched ++ t)

theorem LExt_refl (st : LoadSt) : LExt st st :=
  ⟨fun _ h => h, ⟨[], by simp⟩, ⟨[], by simp⟩⟩

theorem LExt_trans {a b c : LoadSt} (h1 : LExt a b) (h2 : LExt b c) : LExt a c := by
  obtain ⟨hv1, ⟨t1, ho1⟩, ⟨u1, hf1⟩⟩ := h1
  obtain ⟨hv2, ⟨t2, ho2⟩, ⟨u2, hf2⟩⟩ := h2
  exact ⟨fun k hk => hv2 k (hv1 k hk),
    ⟨t1 ++ t2, by rw [ho2, ho1, List.append_assoc]⟩,
    ⟨u1 ++ u2, by rw [hf2, hf1, List.append_assoc]⟩⟩

theorem dfs_list_ext (rec : String → String → LoadSt → Option LoadSt)
    (hrec : ∀ p v s s', rec p v s = some s' → LExt s s') :
    ∀ (ds : List Dep) (st st' : LoadSt), dfs_list rec ds st = some st' → LExt st st' := by
  intro ds
  induction ds with
  | nil =>
    intro st st' h
    obtain rfl : st = st' := by simpa [dfs_list] using h
    exact LExt_refl st
  | cons d ds ih =>
    intro st st' h
    simp only [dfs_list] at h
    obtain ⟨mid, hmid, hrest⟩ := Option.bind_eq_some.mp h
    exact LExt_trans (hrec _ _ _ _ hmid) (ih _ _ hrest)

theorem dfs_load_ext (f : Fetcher) :
    ∀ (fuel : Nat) (p v : String) (st st' : LoadSt),
      dfs_load f fuel p v st = some st' → LExt st st' := by
  intro fuel
  induction fuel with
  | zero => intro p v st st' h; simp [dfs_load] at h
  | succ fuel ih =>
    intro p v st st' h
    simp only [dfs_load] at h
    by_cases hv : memB (nodeKey p v) st.visited
    · rw [if_pos hv] at h
      obtain rfl : st = st' := by simpa using h
      exact LExt_refl st
    · rw [if_neg hv] at h
      obtain ⟨st2, hst2, rfl⟩ := Option.map_eq_some'.mp h
      have hext : LExt ⟨nodeKey p v :: st.visited, st.order, st.fetched ++ [(p, v)]⟩ st2 :=
        dfs_list_ext _ (fun p' v' s s' hs => ih p' v' s s' hs) _ _ _ hst2
      obtain ⟨hv2, ⟨t, ho⟩, ⟨u, hf⟩⟩ := hext
      refine ⟨?_, ⟨t ++ [nodeKey p v], ?_⟩, ⟨(p, v) :: u, ?_⟩⟩
      · intro k hk
        exact hv2 k (List.mem_cons_of_mem _ hk)
      · simp only [ho]
        simp [List.append_assoc]
      · simp only [hf]
        simp

/-- Invariant of the load-order DFS relative to the call stack `P` (the keys
of the nodes currently being expanded, outermost first): the visited set is
exactly the completed (ordered) nodes plus the stack; every fetched node's key
is visited; and every fetched node is either still on the stack or all of its
dependency keys already precede its key in the post-order accumulator. -/
def LoadInv (f : Fetcher) (st : LoadSt) (P : List String) : Prop :=
  (∀ k, k ∈ st.visited ↔ (k ∈ st.order ∨ k ∈ P)) ∧
  (∀ n ∈ st.fetched, keyOf n ∈ st.visited) ∧
  (∀ n ∈ st.fetched, keyOf n ∈ P ∨
    ∀ m ∈ depPairs f n, List.Sublist [keyOf m, keyOf n] st.order)

/-- The dependency-loop step of the main induction: processing a list of
dependencies preserves the invariant, visits each of them, and only fetches
nodes that were unvisited at entry. -/
theorem dfs_list_main (f : Fetcher) (Lg : List (String × String))
    (rec : String → String → LoadSt → Option LoadSt)
    (hrecExt : ∀ p v s s', rec p v s = some s' → LExt s s')
    (hrecMain : ∀ p v s s' P,
      rec p v s = some s' →
      LoadInv f s P →
      (∀ n ∈ s'.fetched, n ∈ Lg) →
      (∀ q ∈ P, Relation.TransGen (DRel f Lg) q (nodeKey p v)) →
      LoadInv f s' P ∧ nodeKey p v ∈ s'.visited ∧
      (∀ n ∈ s'.fetched, n ∈ s.fetched ∨ keyOf n ∉ s.visited)) :
    ∀ (ds : List Dep) (st st' : LoadSt) (P : List String),
      dfs_list rec ds st = some st' →
      LoadInv f st P →
      (∀ n ∈ st'.fetched, n ∈ Lg) →
      (∀ d ∈ ds, ∀ q ∈ P,
        Relation.TransGen (DRel f Lg) q (nodeKey d.name (extract_version d.version))) →
      LoadInv f st' P ∧
      (∀ d ∈ ds, nodeKey d.name (extract_version d.version) ∈ st'.visited) ∧
      (∀ n ∈ st'.fetched, n ∈ st.fetched ∨ keyOf n ∉ st.visited) := by
  intro ds
  induction ds with
  | nil =>
    intro st st' P h hinv _ _
    obtain rfl : st = st' := by simpa [dfs_list] using h
    exact ⟨hinv, by simp, fun n hn => Or.inl hn⟩
  | cons d ds ih =>
    intro st st' P h hinv hLg hstack
    simp only [dfs_list] at h
    obtain ⟨mid, hmid, hrest⟩ := Option.bind_eq_some.mp h
    have hextRest : LExt mid st' := dfs_list_ext rec hrecExt ds mid st' hrest
    have hmidLg : ∀ n ∈ mid.fetched, n ∈ Lg := by
      intro n hn
      obtain ⟨u, hu⟩ := hextRest.2.2
      exact hLg n (by rw [hu]; exact List.mem_append_left _ hn)
    obtain ⟨invM, hdVis, newM⟩ := hrecMain _ _ _ _ P hmid hinv hmidLg
      (hstack d (List.mem_cons_self d ds))
    obtain ⟨invF, hdsVis, newR⟩ := ih mid st' P hrest invM hLg
      (fun d' hd' => hstack d' (List.mem_cons_of_mem d hd'))
    refine ⟨invF, ?_, ?_⟩
    · intro d' hd'
      rcases List.mem_cons.mp hd' with rfl | hd'
      · exact hextRest.1 _ hdVis
      · exact hdsVis d' hd'
    · intro n hn
      rcases newR n hn with h1 | h1
      · rcases newM n h1 with h2 | h2
        · exact Or.inl h2
        · exact Or.inr h2
      · refine Or.inr fun hc => h1 ((hrecExt _ _ _ _ hmid).1 _ hc)

/-- Main induction for the load-order DFS: assuming the discovered relation
(restricted to an overapproximation `Lg` of the fetch log) is acyclic, a
completed call preserves the invariant, visits its node, and only fetches
previously-unvisited nodes. -/
theorem dfs_load_main (f : Fetcher) (Lg : List (String × String)) (hacyc : AcyclicIn f Lg) :
    ∀ (fuel : Nat) (p v : String) (st st' : LoadSt) (P : List String),
      dfs_load f fuel p v st = some st' →
      LoadInv f st P →
      (∀ n ∈ st'.fetched, n ∈ Lg) →
      (∀ q ∈ P, Relation.TransGen (DRel f Lg) q (nodeKey p v)) →
      LoadInv f st' P ∧ nodeKey p v ∈ st'.visited ∧
      (∀ n ∈ st'.fetched, n ∈ st.fetched ∨ keyOf n ∉ st.visited) := by
  intro fuel
  induction fuel with
  | zero => intro p v st st' P h; simp [dfs_load] at h
  | succ fuel ih =>
    intro p v st st' P h hinv hLg hstack
    simp only [dfs_load] at h
    by_cases hv : memB (nodeKey p v) st.visited
    · rw [if_pos hv] at h
      obtain rfl : st = st' := by simpa using h
      exact ⟨hinv, (memB_iff _ _).mp hv, fun n hn => Or.inl hn⟩
    · rw [if_neg hv] at h
      obtain ⟨st2, hst2, rfl⟩ := Option.map_eq_some'.mp h
      have hnv : nodeKey p v ∉ st.visited := fun hc => hv ((memB_iff _ _).mpr hc)
      have hext1 : LExt ⟨nodeKey p v :: st.visited, st.order, st.fetched ++ [(p, v)]⟩ st2 :=
        dfs_list_ext _ (fun p' v' s s' hs => dfs_load_ext f fuel p' v' s s' hs) _ _ _ hst2
      have hpv2 : (p, v) ∈ st2.fetched := by
        obtain ⟨u, hu⟩ := hext1.2.2
        rw [hu]
        exact List.mem_append_left _ (List.mem_append_right _ (List.mem_singleton.mpr rfl))
      have hpvLg : (p, v) ∈ Lg := hLg _ hpv2
      have hstep : ∀ d ∈ f p v,
          DRel f Lg (nodeKey p v) (nodeKey d.name (extract_version d.version)) := by
        intro d hd
        refine ⟨(p, v), hpvLg, rfl, ?_⟩
        simp only [depPairs, List.map_map, List.mem_map]
        exact ⟨d, hd, rfl⟩
      have inv1 : LoadInv f ⟨nodeKey p v :: st.visited, st.order, st.fetched ++ [(p, v)]⟩
          (P ++ [nodeKey p v]) := by
        refine ⟨?_, ?_, ?_⟩
        · intro k
          simp only [List.mem_cons, List.mem_append, List.mem_singleton, hinv.1 k]
          tauto
        · intro n hn
          rcases List.mem_append.mp hn with hn | hn
          · exact List.mem_cons_of_mem _ (hinv.2.1 n hn)
          · obtain rfl : n = (p, v) := by simpa using hn
            exact List.mem_cons_self _ _
        · intro n hn
          rcases List.mem_append.mp hn with hn | hn
          · rcases hinv.2.2 n hn with h1 | h1
            · exact Or.inl (List.mem_append_left _ h1)
            · exact Or.inr h1
          · obtain rfl : n = (p, v) := by simpa using hn
            exact Or.inl (List.mem_append_right _ (List.mem_singleton.mpr rfl))
      have hLg2 : ∀ n ∈ st2.fetched, n ∈ Lg := fun n hn => hLg n hn
      have hstack2 : ∀ d ∈ f p v, ∀ q ∈ P ++ [nodeKey p v],
          Relation.TransGen (DRel f Lg) q (nodeKey d.name (extract_version d.version)) := by
        intro d hd q hq
        rcases List.mem_append.mp hq with hq | hq
        · exact Relation.TransGen.tail (hstack q hq) (hstep d hd)
        · obtain rfl : q = nodeKey p v := by simpa using hq
          exact Relation.TransGen.single (hstep d hd)
      obtain ⟨inv2, hdsVis, new2⟩ := dfs_list_main f Lg _
        (fun p' v' s s' hs => dfs_load_ext f fuel p' v' s s' hs)
        (fun p' v' s s' P' hs hi hl hst => ih p' v' s s' P' hs hi hl hst)
        (f p v) _ st2 (P ++ [nodeKey p v]) hst2 inv1 hLg2 hstack2
      have hAllOrder : ∀ d ∈ f p v,
          nodeKey d.name (extract_version d.version) ∈ st2.order := by
        intro d hd
        rcases (inv2.1 _).mp (hdsVis d hd) with ho | hp
        · exact ho
        · exfalso
          rcases List.mem_append.mp hp with hq | hq
          · exact hacyc _ (Relation.TransGen.tail (hstack _ hq) (hstep d hd))
          · obtain hq : nodeKey d.name (extract_version d.version) = nodeKey p v := by
              simpa using hq
            exact hacyc _ (Relation.TransGen.single (hq ▸ hstep d hd))
      refine ⟨⟨?_, ?_, ?_⟩, ?_, ?_⟩
      · intro k
        simp only [List.mem_append, List.mem_singleton]
        rw [show ({ st2 with order := st2.order ++ [nodeKey p v] } : LoadSt).visited
          = st2.visited from rfl, inv2.1 k]
        simp only [List.mem_append, List.mem_singleton]
        tauto
      · intro n hn
        exact inv2.2.1 n hn
      · intro n hn
        rcases inv2.2.2 n hn with hp | hdone
        · rcases List.mem_append.mp hp with hq | hq
          · exact Or.inl hq
          · have hkn : keyOf n = nodeKey p v := by simpa using hq
            refine Or.inr ?_
            have hnpv : n = (p, v) := by
              rcases new2 n hn with h1 | h1
              · rcases List.mem_append.mp h1 with h2 | h2
                · exact absurd (hinv.2.1 n h2) (hkn ▸ hnv)
                · simpa using h2
              · exact absurd (hkn ▸ List.mem_cons_self (nodeKey p v) st.visited) h1
            subst hnpv
            intro m hm
            simp only [depPairs, List.mem_map] at hm
            obtain ⟨d, hd, rfl⟩ := hm
            have h1 : List.Sublist [keyOf (d.name, extract_version d.version)] st2.order :=
              List.singleton_sublist.mpr (hAllOrder d hd)
            exact List.Sublist.append h1 (List.Sublist.refl [nodeKey p v])
        · refine Or.inr fun m hm => ?_
          exact List.Sublist.trans (hdone m hm) (List.sublist_append_left _ _)
      · exact hext1.1 _ (List.mem_cons_self _ _)
      · intro n hn
        rcases new2 n hn with h1 | h1
        · rcases List.mem_append.mp h1 with h2 | h2
          · exact Or.inl h2
          · obtain rfl : n = (p, v) := by simpa using h2
            exact Or.inr hnv
        · exact Or.inr fun hc => h1 (List.mem_cons_of_mem _ hc)

/-- Claim C1 (amended): for every fetcher whose discovered dependency relation
is acyclic, whenever the load-order computation completes, for every edge
`p -> c` discovered during that traversal (`p` was fetched and `c` is among
its normalized dependencies) the key of `c` appears AFTER the key of `p` in
the returned sequence: the post-order list is reversed before being returned,
so dependents precede their dependencies (and the root key is first, not
last — see `load_order_head`). -/
theorem load_order_topological (f : Fetcher) (fuel : Nat) (p v : String) (st' : LoadSt)
    (h : calculate_load_order_full f fuel p v = some st')
    (hacyc : AcyclicIn f st'.fetched) :
    calculate_load_order f fuel p v = some st'.order.reverse ∧
    ∀ n ∈ st'.fetched, ∀ m ∈ depPairs f n,
      List.Sublist [keyOf n, keyOf m] st'.order.reverse := by
  constructor
  · simp [calculate_load_order, h]
  · have hinit : LoadInv f ⟨[], [], []⟩ [] := by
      refine ⟨by simp, by simp, by simp⟩
    have hmain := dfs_load_main f st'.fetched hacyc fuel p v ⟨[], [], []⟩ st' []
      h hinit (fun n hn => hn) (by simp)
    intro n hn m hm
    rcases hmain.1.2.2 n hn with hp | hdone
    · simp at hp
    · have hrev := List.Sublist.reverse (hdone m hm)
      simpa using hrev

/-- Every discovered edge of the end-to-end scenario leaves `root@1.0` and
never returns to it. -/
theorem exF_drel_step : ∀ k k',
    DRel exF [("root", "1.0"), ("left", "1.0"), ("right", "2.0")] k k' →
    k = "root@1.0" ∧ k' ≠ "root@1.0" := by
  intro k k' hrel
  obtain ⟨n, hn, hk, hk'⟩ := hrel
  simp only [List.mem_cons, List.not_mem_nil, or_false] at hn
  rcases hn with rfl | rfl | rfl
  · have hd : (depPairs exF ("root", "1.0")).map keyOf = ["left@1.0", "right@2.0"] := rfl
    rw [hd] at hk'
    subst hk
    refine ⟨rfl, ?_⟩
    rcases List.mem_cons.mp hk' with rfl | hk'
    · decide
    · obtain rfl : k' = "right@2.0" := by simpa using hk'
      decide
  · have hd : (depPairs exF ("left", "1.0")).map keyOf = [] := rfl
    rw [hd] at hk'
    exact absurd hk' (List.not_mem_nil k')
  · have hd : (depPairs exF ("right", "2.0")).map keyOf = [] := rfl
    rw [hd] at hk'
    exact absurd hk' (List.not_mem_nil k')

/-- The dependency relation discovered in the end-to-end scenario is acyclic. -/
theorem exF_acyclic :
    AcyclicIn exF [("root", "1.0"), ("left", "1.0"), ("right", "2.0")] := by
  have htgt : ∀ a b,
      Relation.TransGen (DRel exF [("root", "1.0"), ("left", "1.0"), ("right", "2.0")]) a b →
      b ≠ "root@1.0" := by
    intro a b h
    induction h with
    | single h1 => exact (exF_drel_step _ _ h1).2
    | tail _ h2 _ => exact (exF_drel_step _ _ h2).2
  intro k hk
  obtain ⟨c, hc, _⟩ := Relation.TransGen.head'_iff.mp hk
  exact htgt k k hk (exF_drel_step _ _ hc).1

/-- Instantiation of `load_order_topological` on the end-to-end scenario:
each discovered edge's child key appears after its parent key. -/
theorem load_order_topological_witness :
    calculate_load_order exF 10 "root" "1.0" =
      some (["left@1.0", "right@2.0", "root@1.0"].reverse) ∧
    ∀ n ∈ [(("root" : String), ("1.0" : String)), ("left", "1.0"), ("right", "2.0")],
      ∀ m ∈ depPairs exF n,
        List.Sublist [keyOf n, keyOf m] (["left@1.0", "right@2.0", "root@1.0"].reverse) :=
  load_order_topological exF 10 "root" "1.0"
    { visited := ["right@2.0", "left@1.0", "root@1.0"],
      order := ["left@1.0", "right@2.0", "root@1.0"],
      fetched := [("root", "1.0"), ("left", "1.0"), ("right", "2.0")] }
    rfl exF_acyclic

end DepViz
